import Mathlib

/-!
Verification of the stock-analysis-tools repository (fetch ticker metadata and
price history from a market-data provider, persist into SQLite with upsert
semantics, and report summaries).

The embedding models the two SQLite tables as lists of row structures, the
`INSERT ... ON CONFLICT DO UPDATE` statement as a key-based insert-or-replace
on those lists, timestamp normalization (`.dt.date.astype(str)`) as a
formatting function that keeps only the calendar-date components, and the
reporter's SQL aggregate query as folds over the matching rows.
-/

namespace StockTools

/-- A SQLite value as it appears in the dynamically typed `ticker_info`
columns: the provider's metadata mapping has string and numeric values. -/
inductive SqlVal where
  | str (s : String)
  | num (q : ℚ)
deriving DecidableEq

/-- The provider's metadata mapping (`yf.Ticker(t).info`): an unordered
key-to-value dictionary, modelled as an association list. -/
abbrev Info := List (String × SqlVal)

/-- `info.get(k)`: dictionary lookup returning `None` for a missing key. -/
def Info.get (info : Info) (k : String) : Option SqlVal :=
  (info.find? (fun p => p.1 = k)).map (·.2)

/-- `json.dumps(info, ensure_ascii=True)` modelled as a deterministic
serialization of the mapping to text. -/
def dumpsVal : SqlVal → String
  | .str s => "\"" ++ s ++ "\""
  | .num q => toString q.num ++ "/" ++ toString q.den

def dumps (info : Info) : String :=
  "\x7b" ++ String.intercalate ", "
    (info.map (fun p => "\"" ++ p.1 ++ "\": " ++ dumpsVal p.2)) ++ "\x7d"

/-- A row of the `ticker_info` table (one per ticker, `ticker` is the
primary key).  `updated_at` holds the `CURRENT_TIMESTAMP` at write time. -/
structure InfoRow where
  ticker : String
  short_name : Option SqlVal
  long_name : Option SqlVal
  quote_type : Option SqlVal
  currency : Option SqlVal
  exchange : Option SqlVal
  market_cap : Option SqlVal
  sector : Option SqlVal
  industry : Option SqlVal
  country : Option SqlVal
  website : Option SqlVal
  raw_info_json : String
  updated_at : Nat
deriving DecidableEq

/-- A row of the `ticker_prices` table (primary key `(ticker, date)`;
all price columns are nullable REALs). -/
structure PriceRow where
  ticker : String
  date : String
  open_ : Option ℚ
  high : Option ℚ
  low : Option ℚ
  close : Option ℚ
  adj_close : Option ℚ
  volume : Option ℚ
  dividends : Option ℚ
  stock_splits : Option ℚ
deriving DecidableEq

/-- The compound primary key of `ticker_prices`. -/
def priceKey (r : PriceRow) : String × String := (r.ticker, r.date)

/-- The whole database: both tables created by `create_tables`. -/
structure DB where
  ticker_info : List InfoRow
  ticker_prices : List PriceRow
deriving DecidableEq

/-- Semantics of SQLite `INSERT ... ON CONFLICT(key) DO UPDATE SET` where
every non-key column is set from `excluded`: if a row with the same key is
present it is replaced in place by the incoming row (the key matches, so
overwriting all non-key columns is the same as replacing the row); otherwise
the incoming row is appended. -/
def sqlUpsert [DecidableEq κ] (f : α → κ) (r : α) (tbl : List α) : List α :=
  if tbl.any (fun x => f x = f r) then
    tbl.map (fun x => if f x = f r then r else x)
  else
    tbl ++ [r]

/-- Extraction of the typed columns plus the raw snapshot from the fetched
metadata mapping, as in the parameter tuple of `upsert_ticker_info`. -/
def infoToRow (ticker : String) (info : Info) (now : Nat) : InfoRow :=
  { ticker := ticker
    short_name := info.get "shortName"
    long_name := info.get "longName"
    quote_type := info.get "quoteType"
    currency := info.get "currency"
    exchange := info.get "exchange"
    market_cap := info.get "marketCap"
    sector := info.get "sector"
    industry := info.get "industry"
    country := info.get "country"
    website := info.get "website"
    raw_info_json := dumps info
    updated_at := now }

/-- `upsert_ticker_info`: insert-or-update of the metadata row keyed by
`ticker`, overwriting every non-key column and refreshing `updated_at`. -/
def upsert_ticker_info (tbl : List InfoRow) (ticker : String) (info : Info)
    (now : Nat) : List InfoRow :=
  sqlUpsert (·.ticker) (infoToRow ticker info now) tbl

/-- A provider timestamp: calendar-date components plus a time of day and a
timezone offset, as carried by the datetime index of the fetched history. -/
structure Timestamp where
  year : Nat
  month : Nat
  day : Nat
  hour : Nat
  minute : Nat
  second : Nat
  tzOffsetMinutes : Int
deriving DecidableEq

/-- One fetched bar of the history `DataFrame`: a timestamp index plus the
OHLCV / dividends / splits columns (absent fields are `none`). -/
structure Bar where
  ts : Timestamp
  open_ : Option ℚ
  high : Option ℚ
  low : Option ℚ
  close : Option ℚ
  adj_close : Option ℚ
  volume : Option ℚ
  dividends : Option ℚ
  stock_splits : Option ℚ
deriving DecidableEq

def pad2 (n : Nat) : String :=
  if n < 10 then "0" ++ toString n else toString n

def pad4 (n : Nat) : String :=
  if n < 10 then "000" ++ toString n
  else if n < 100 then "00" ++ toString n
  else if n < 1000 then "0" ++ toString n
  else toString n

/-- `history[date_column].dt.date.astype(str)`: the wall-clock calendar date
of the timestamp rendered as `YYYY-MM-DD`, discarding the time of day and
the timezone offset. -/
def dtDate (ts : Timestamp) : String :=
  pad4 ts.year ++ "-" ++ pad2 ts.month ++ "-" ++ pad2 ts.day

/-- The tuple built for one bar inside the `history.iterrows()` loop. -/
def barToRow (ticker : String) (b : Bar) : PriceRow :=
  { ticker := ticker
    date := dtDate b.ts
    open_ := b.open_
    high := b.high
    low := b.low
    close := b.close
    adj_close := b.adj_close
    volume := b.volume
    dividends := b.dividends
    stock_splits := b.stock_splits }

/-- `conn.executemany` of the price upsert statement: the upsert is applied
to each submitted tuple in batch order. -/
def execPriceUpserts (tbl : List PriceRow) (rows : List PriceRow) :
    List PriceRow :=
  rows.foldl (fun t r => sqlUpsert priceKey r t) tbl

/-- `upsert_price_history`, with the provider call factored out: given the
fetched `history`, return 0 and leave the table alone when it is empty,
otherwise normalize each bar's timestamp to a date string, bulk-upsert the
tuples, and return the number of rows submitted. -/
def upsert_price_history (tbl : List PriceRow) (ticker : String)
    (history : List Bar) : List PriceRow × Nat :=
  if history.isEmpty then (tbl, 0)
  else
    let rows := history.map (barToRow ticker)
    (execPriceUpserts tbl rows, rows.length)

/-- `fetch_info`: the provider metadata call, which raises
`RuntimeError(f"No metadata returned for ticker: {ticker}")` when the
provider returns an empty mapping. -/
def fetch_info (ticker : String) (providerInfo : Info) : Except String Info :=
  if providerInfo.isEmpty then
    .error ("No metadata returned for ticker: " ++ ticker)
  else .ok providerInfo

/-- The fetch-and-merge sequencing of `main`: fetch metadata (failing fast
on an empty mapping, before any write), then upsert the info row, then
upsert the price history; the scoped connection commits only on success, so
an error yields no new database state. -/
def addTicker (db : DB) (ticker : String) (providerInfo : Info)
    (history : List Bar) (now : Nat) : Except String (DB × Nat) :=
  match fetch_info ticker providerInfo with
  | .error e => .error e
  | .ok info =>
    let info' := upsert_ticker_info db.ticker_info ticker info now
    let (prices', count) := upsert_price_history db.ticker_prices ticker history
    .ok ({ ticker_info := info', ticker_prices := prices' }, count)

/-- Database-level price merge, for frame reasoning: only `ticker_prices`
is touched by the price upsert statement. -/
def dbUpsertPrices (db : DB) (ticker : String) (history : List Bar) :
    DB × Nat :=
  let (prices', count) := upsert_price_history db.ticker_prices ticker history
  ({ db with ticker_prices := prices' }, count)

/-- Database-level metadata merge: only `ticker_info` is touched. -/
def dbUpsertInfo (db : DB) (ticker : String) (info : Info) (now : Nat) : DB :=
  { db with ticker_info := upsert_ticker_info db.ticker_info ticker info now }

/-- Byte-wise lexicographic comparison of character lists, the order SQLite
uses (via `memcmp`) to compare TEXT values in `MIN`, `MAX` and `ORDER BY`. -/
def lexLt : List Char → List Char → Bool
  | [], [] => false
  | [], _ :: _ => true
  | _ :: _, [] => false
  | a :: as, b :: bs =>
    if a.toNat < b.toNat then true
    else if b.toNat < a.toNat then false
    else lexLt as bs

/-- SQLite's comparison on TEXT values. -/
def sqliteLt (a b : String) : Bool := lexLt a.data b.data

/-- The row returned by the reporter's aggregate query in
`check_ticker_in_db.py` when at least one price row matches. -/
structure Summary where
  ticker : String
  row_count : Nat
  first_date : String
  last_date : String
  latest_close : Option ℚ
deriving DecidableEq

/-- The correlated subquery `SELECT close ... ORDER BY date DESC LIMIT 1`:
the row with the maximal date among the matches (the scan keeps the current
candidate unless a strictly later date appears). -/
def latestRow (r : PriceRow) (rs : List PriceRow) : PriceRow :=
  rs.foldl (fun a x => if sqliteLt a.date x.date then x else a) r

/-- `MIN(date)` over a non-empty group. -/
def minDate (d : String) (rs : List PriceRow) : String :=
  rs.foldl (fun a x => if sqliteLt x.date a then x.date else a) d

/-- `MAX(date)` over a non-empty group. -/
def maxDate (d : String) (rs : List PriceRow) : String :=
  rs.foldl (fun a x => if sqliteLt a x.date then x.date else a) d

/-- The reporter's query: group the rows of the requested ticker, and when
the group is non-empty compute `COUNT(*)`, `MIN(date)`, `MAX(date)` and the
close of the latest-dated row.  `fetchone()` on an empty group is `None`. -/
def check_ticker (tbl : List PriceRow) (ticker : String) : Option Summary :=
  match tbl.filter (fun r => r.ticker = ticker) with
  | [] => none
  | r :: rs =>
    some { ticker := ticker
           row_count := (r :: rs).length
           first_date := minDate r.date rs
           last_date := maxDate r.date rs
           latest_close := (latestRow r rs).close }

/-- What the reporter prints: either the "No price rows found" message or
the summary block (the script also re-checks `row[1] == 0`). -/
inductive ReportResult where
  | noData (ticker : String)
  | found (s : Summary)
deriving DecidableEq

def report (tbl : List PriceRow) (ticker : String) : ReportResult :=
  match check_ticker tbl ticker with
  | none => .noData ticker
  | some s => if s.row_count = 0 then .noData ticker else .found s

/-! ### Concrete sample data, for the spec's worked example and for
evaluating the general theorems on explicit inputs -/

/-- A stored price row holding only a close value, as in the spec's
reporter example. -/
def closeOnlyRow (t d : String) (c : ℚ) : PriceRow :=
  { ticker := t, date := d, open_ := none, high := none, low := none,
    close := some c, adj_close := none, volume := none, dividends := none,
    stock_splits := none }

/-- The spec's example store: ticker "XYZ" with three dated close values. -/
def xyzTable : List PriceRow :=
  [closeOnlyRow "XYZ" "2024-01-02" (mkRat 21 2),
   closeOnlyRow "XYZ" "2024-01-03" 11,
   closeOnlyRow "XYZ" "2024-01-04" (mkRat 49 5)]

/-- A fetched bar at midnight local time carrying only a close value. -/
def sampleBar (y mo d : Nat) (c : ℚ) : Bar :=
  { ts := { year := y, month := mo, day := d, hour := 0, minute := 0,
            second := 0, tzOffsetMinutes := -300 },
    open_ := none, high := none, low := none, close := some c,
    adj_close := none, volume := none, dividends := none,
    stock_splits := none }

/-- A small provider metadata mapping. -/
def sampleInfo : Info := [("shortName", SqlVal.str "Acme"),
                          ("currency", SqlVal.str "COP"),
                          ("marketCap", SqlVal.num 1000000)]

/-- An empty database, as created by `create_tables` on a fresh file. -/
def emptyDB : DB := { ticker_info := [], ticker_prices := [] }


/-! ### Generic properties of the SQLite upsert statement -/

variable {κ α : Type} [DecidableEq κ] {f : α → κ} {r : α} {tbl : List α}

theorem map_key_replace :
    (tbl.map (fun x => if f x = f r then r else x)).map f = tbl.map f := by
  induction tbl with
  | nil => rfl
  | cons x xs ih =>
    by_cases h : f x = f r <;> simp [h, ih]

theorem map_key_sqlUpsert_pos (h : tbl.any (fun x => decide (f x = f r)) = true) :
    (sqlUpsert f r tbl).map f = tbl.map f := by
  simp only [sqlUpsert]
  rw [if_pos h]
  exact map_key_replace

theorem sqlUpsert_eq_append (h : tbl.any (fun x => decide (f x = f r)) = false) :
    sqlUpsert f r tbl = tbl ++ [r] := by
  simp only [sqlUpsert]
  rw [if_neg (by simp [h])]

theorem any_key_iff :
    tbl.any (fun x => decide (f x = f r)) = true ↔ f r ∈ tbl.map f := by
  constructor
  · intro h
    rw [List.any_eq_true] at h
    obtain ⟨x, hx, hd⟩ := h
    rw [decide_eq_true_eq] at hd
    exact hd ▸ List.mem_map_of_mem f hx
  · intro h
    rw [List.mem_map] at h
    obtain ⟨x, hx, hfx⟩ := h
    rw [List.any_eq_true]
    exact ⟨x, hx, by simp [hfx]⟩

theorem nodup_map_sqlUpsert (hnd : (tbl.map f).Nodup) :
    ((sqlUpsert f r tbl).map f).Nodup := by
  by_cases h : tbl.any (fun x => decide (f x = f r)) = true
  · rw [map_key_sqlUpsert_pos h]; exact hnd
  · rw [sqlUpsert_eq_append (by simpa using h)]
    simp only [List.map_append, List.map_cons, List.map_nil]
    rw [List.nodup_append]
    refine ⟨hnd, List.nodup_singleton _, ?_⟩
    intro a ha hb
    simp only [List.mem_singleton] at hb
    subst hb
    exact h (any_key_iff.mpr ha)

theorem length_sqlUpsert_mem (h : f r ∈ tbl.map f) :
    (sqlUpsert f r tbl).length = tbl.length := by
  simp only [sqlUpsert]
  rw [if_pos (any_key_iff.mpr h)]
  simp

theorem mem_map_sqlUpsert_self : f r ∈ (sqlUpsert f r tbl).map f := by
  by_cases h : tbl.any (fun x => decide (f x = f r)) = true
  · rw [map_key_sqlUpsert_pos h]; exact any_key_iff.mp h
  · rw [sqlUpsert_eq_append (by simpa using h)]; simp

theorem mem_map_sqlUpsert_mono {k : κ} (h : k ∈ tbl.map f) :
    k ∈ (sqlUpsert f r tbl).map f := by
  by_cases hc : tbl.any (fun x => decide (f x = f r)) = true
  · rw [map_key_sqlUpsert_pos hc]; exact h
  · rw [sqlUpsert_eq_append (by simpa using hc)]; simp [h]

theorem find?_sqlUpsert_self :
    (sqlUpsert f r tbl).find? (fun x => decide (f x = f r)) = some r := by
  by_cases hc : tbl.any (fun x => decide (f x = f r)) = true
  · simp only [sqlUpsert]
    rw [if_pos hc]
    induction tbl with
    | nil => simp at hc
    | cons y ys ih =>
      by_cases hy : f y = f r
      · rw [List.map_cons, if_pos hy, List.find?_cons_of_pos _ (by simp)]
      · have hc' : ys.any (fun x => decide (f x = f r)) = true := by
          simpa [List.any_cons, hy] using hc
        rw [List.map_cons, if_neg hy,
          List.find?_cons_of_neg _ (by simp [hy]), ih hc']
  · rw [sqlUpsert_eq_append (by simpa using hc)]
    rw [List.find?_append]
    have hnone : tbl.find? (fun x => decide (f x = f r)) = none := by
      rw [List.find?_eq_none]
      intro x hx
      simp only [List.any_eq_true] at hc
      push_neg at hc
      simpa using hc x hx
    simp [hnone]

theorem find?_sqlUpsert_ne {k : κ} (h : f r ≠ k) :
    (sqlUpsert f r tbl).find? (fun x => decide (f x = k)) =
      tbl.find? (fun x => decide (f x = k)) := by
  by_cases hc : tbl.any (fun x => decide (f x = f r)) = true
  · simp only [sqlUpsert]
    rw [if_pos hc]
    clear hc
    induction tbl with
    | nil => rfl
    | cons y ys ih =>
      by_cases hy : f y = f r
      · have hky : ¬ (f y = k) := fun hk => h (hy ▸ hk)
        rw [List.map_cons, if_pos hy,
          List.find?_cons_of_neg _ (by simp [h]),
          List.find?_cons_of_neg _ (by simp [hky]), ih]
      · by_cases hk : f y = k
        · rw [List.map_cons, if_neg hy,
            List.find?_cons_of_pos _ (by simp [hk]),
            List.find?_cons_of_pos _ (by simp [hk])]
        · rw [List.map_cons, if_neg hy,
            List.find?_cons_of_neg _ (by simp [hk]),
            List.find?_cons_of_neg _ (by simp [hk]), ih]
  · rw [sqlUpsert_eq_append (by simpa using hc)]
    rw [List.find?_append]
    cases hf : tbl.find? (fun x => decide (f x = k)) with
    | some v => simp
    | none => simp [h]

theorem mem_sqlUpsert {x : α} (h : x ∈ sqlUpsert f r tbl) :
    x ∈ tbl ∨ x = r := by
  by_cases hc : tbl.any (fun x => decide (f x = f r)) = true
  · simp only [sqlUpsert] at h
    rw [if_pos hc] at h
    rw [List.mem_map] at h
    obtain ⟨y, hy, hxy⟩ := h
    by_cases hfy : f y = f r
    · right
      rw [if_pos hfy] at hxy
      exact hxy.symm
    · left
      rw [if_neg hfy] at hxy
      exact hxy ▸ hy
  · rw [sqlUpsert_eq_append (by simpa using hc)] at h
    rw [List.mem_append, List.mem_singleton] at h
    exact h

theorem filter_sqlUpsert (q : α → Bool) (hq : q r = false)
    (hcompat : ∀ x, f x = f r → q x = false) :
    (sqlUpsert f r tbl).filter q = tbl.filter q := by
  by_cases hc : tbl.any (fun x => decide (f x = f r)) = true
  · simp only [sqlUpsert]
    rw [if_pos hc]
    clear hc
    induction tbl with
    | nil => rfl
    | cons y ys ih =>
      by_cases hy : f y = f r
      · have h1 : q y = false := hcompat y hy
        rw [List.map_cons, if_pos hy, List.filter_cons_of_neg (by simp [hq]),
          List.filter_cons_of_neg (by simp [h1]), ih]
      · rw [List.map_cons, if_neg hy]
        cases hqy : q y with
        | true =>
          rw [List.filter_cons_of_pos (by simp [hqy]),
            List.filter_cons_of_pos (by simp [hqy]), ih]
        | false =>
          rw [List.filter_cons_of_neg (by simp [hqy]),
            List.filter_cons_of_neg (by simp [hqy]), ih]
  · rw [sqlUpsert_eq_append (by simpa using hc)]
    rw [List.filter_append]
    simp [List.filter, hq]

/-! ### Properties of the bulk price upsert -/

theorem execPriceUpserts_cons (tbl : List PriceRow) (r : PriceRow)
    (rows : List PriceRow) :
    execPriceUpserts tbl (r :: rows) =
      execPriceUpserts (sqlUpsert priceKey r tbl) rows := rfl

theorem nodup_execPriceUpserts (rows : List PriceRow) (tbl : List PriceRow)
    (hnd : (tbl.map priceKey).Nodup) :
    ((execPriceUpserts tbl rows).map priceKey).Nodup := by
  induction rows generalizing tbl with
  | nil => exact hnd
  | cons r rows ih =>
    rw [execPriceUpserts_cons]
    exact ih _ (nodup_map_sqlUpsert hnd)

theorem mem_key_execPriceUpserts_mono (rows : List PriceRow)
    (tbl : List PriceRow) {k : String × String} (h : k ∈ tbl.map priceKey) :
    k ∈ (execPriceUpserts tbl rows).map priceKey := by
  induction rows generalizing tbl with
  | nil => exact h
  | cons r rows ih =>
    rw [execPriceUpserts_cons]
    exact ih _ (mem_map_sqlUpsert_mono h)

theorem keys_sub_execPriceUpserts (rows : List PriceRow) (tbl : List PriceRow)
    {x : PriceRow} (hx : x ∈ rows) :
    priceKey x ∈ (execPriceUpserts tbl rows).map priceKey := by
  induction rows generalizing tbl with
  | nil => simp at hx
  | cons r rows ih =>
    rw [execPriceUpserts_cons]
    cases hx with
    | head =>
      exact mem_key_execPriceUpserts_mono rows _ mem_map_sqlUpsert_self
    | tail _ hx' => exact ih _ hx'

theorem execPriceUpserts_keys_of_present (rows : List PriceRow)
    (tbl : List PriceRow)
    (h : ∀ x ∈ rows, priceKey x ∈ tbl.map priceKey) :
    (execPriceUpserts tbl rows).map priceKey = tbl.map priceKey ∧
      (execPriceUpserts tbl rows).length = tbl.length := by
  induction rows generalizing tbl with
  | nil => exact ⟨rfl, rfl⟩
  | cons r rows ih =>
    rw [execPriceUpserts_cons]
    have hr : priceKey r ∈ tbl.map priceKey := h r (List.mem_cons_self _ _)
    have hany : tbl.any (fun x => decide (priceKey x = priceKey r)) = true :=
      any_key_iff.mpr hr
    have hkeys : (sqlUpsert priceKey r tbl).map priceKey = tbl.map priceKey :=
      map_key_sqlUpsert_pos hany
    have hrest : ∀ x ∈ rows, priceKey x ∈ (sqlUpsert priceKey r tbl).map priceKey := by
      intro x hx
      rw [hkeys]
      exact h x (List.mem_cons_of_mem _ hx)
    obtain ⟨h1, h2⟩ := ih _ hrest
    refine ⟨h1.trans hkeys, h2.trans ?_⟩
    exact length_sqlUpsert_mem hr

theorem mem_execPriceUpserts (rows : List PriceRow) (tbl : List PriceRow)
    {x : PriceRow} (h : x ∈ execPriceUpserts tbl rows) :
    x ∈ tbl ∨ x ∈ rows := by
  induction rows generalizing tbl with
  | nil => exact Or.inl h
  | cons r rows ih =>
    rw [execPriceUpserts_cons] at h
    rcases ih _ h with h' | h'
    · rcases mem_sqlUpsert h' with h'' | h''
      · exact Or.inl h''
      · exact Or.inr (h'' ▸ List.mem_cons_self _ _)
    · exact Or.inr (List.mem_cons_of_mem _ h')

theorem filter_execPriceUpserts (rows : List PriceRow) (tbl : List PriceRow)
    (q : PriceRow → Bool) (hrows : ∀ x ∈ rows, q x = false)
    (hcompat : ∀ x y, priceKey x = priceKey y → q y = false → q x = false) :
    (execPriceUpserts tbl rows).filter q = tbl.filter q := by
  induction rows generalizing tbl with
  | nil => rfl
  | cons r rows ih =>
    rw [execPriceUpserts_cons]
    rw [ih _ (fun x hx => hrows x (List.mem_cons_of_mem _ hx))]
    exact filter_sqlUpsert q (hrows r (List.mem_cons_self _ _))
      (fun x hx => hcompat x r hx (hrows r (List.mem_cons_self _ _)))

/-! ### Properties of the reporter's aggregate query -/

theorem latestRow_mem (r : PriceRow) (rs : List PriceRow) :
    latestRow r rs ∈ r :: rs := by
  induction rs generalizing r with
  | nil => exact List.mem_cons_self _ _
  | cons x xs ih =>
    have step : latestRow r (x :: xs)
        = latestRow (if sqliteLt r.date x.date then x else r) xs := rfl
    rw [step]
    by_cases h : sqliteLt r.date x.date = true
    · rw [if_pos h]
      exact List.mem_cons_of_mem _ (ih x)
    · rw [if_neg h]
      rcases List.mem_cons.mp (ih r) with h' | h'
      · exact List.mem_cons.mpr (Or.inl h')
      · exact List.mem_cons_of_mem _ (List.mem_cons_of_mem _ h')

theorem latestRow_date (r : PriceRow) (rs : List PriceRow) :
    (latestRow r rs).date = maxDate r.date rs := by
  induction rs generalizing r with
  | nil => rfl
  | cons x xs ih =>
    have step1 : latestRow r (x :: xs)
        = latestRow (if sqliteLt r.date x.date then x else r) xs := rfl
    have step2 : maxDate r.date (x :: xs)
        = maxDate (if sqliteLt r.date x.date then x.date else r.date) xs := rfl
    rw [step1, step2]
    by_cases h : sqliteLt r.date x.date = true
    · rw [if_pos h, if_pos h]
      exact ih x
    · rw [if_neg h, if_neg h]
      exact ih r

/-! ### Last-write-wins within one batch -/

theorem all_key_sqlUpsert_self {κ α : Type} [DecidableEq κ] {f : α → κ}
    {r : α} {tbl : List α} {y : α} (hy : y ∈ sqlUpsert f r tbl)
    (hk : f y = f r) : y = r := by
  by_cases hc : tbl.any (fun x => decide (f x = f r)) = true
  · simp only [sqlUpsert] at hy
    rw [if_pos hc] at hy
    rw [List.mem_map] at hy
    obtain ⟨x, hx, hxy⟩ := hy
    by_cases hfx : f x = f r
    · rw [if_pos hfx] at hxy
      exact hxy.symm
    · rw [if_neg hfx] at hxy
      exact absurd (hxy ▸ hk) hfx
  · rw [sqlUpsert_eq_append (by simpa using hc)] at hy
    rw [List.mem_append, List.mem_singleton] at hy
    rcases hy with hy | hy
    · exfalso
      apply hc
      rw [List.any_eq_true]
      exact ⟨y, hy, by simp [hk]⟩
    · exact hy

theorem mem_execPriceUpserts_of_key_ne (rows : List PriceRow)
    (tbl : List PriceRow) {k : String × String} {y : PriceRow}
    (hrows : ∀ x ∈ rows, priceKey x ≠ k)
    (hy : y ∈ execPriceUpserts tbl rows) (hk : priceKey y = k) : y ∈ tbl := by
  induction rows generalizing tbl with
  | nil => exact hy
  | cons r rows ih =>
    rw [execPriceUpserts_cons] at hy
    have h1 : y ∈ sqlUpsert priceKey r tbl :=
      ih _ (fun x hx => hrows x (List.mem_cons_of_mem _ hx)) hy
    rcases mem_sqlUpsert h1 with h2 | h2
    · exact h2
    · exact absurd (h2 ▸ hk) (hrows r (List.mem_cons_self _ _))

theorem execPriceUpserts_last_write (rows : List PriceRow)
    (tbl : List PriceRow) {k : String × String} {r : PriceRow}
    (hlast : (rows.filter (fun x => decide (priceKey x = k))).getLast? = some r) :
    ∀ y ∈ execPriceUpserts tbl rows, priceKey y = k → y = r := by
  induction rows generalizing tbl with
  | nil => simp [List.getLast?] at hlast
  | cons x xs ih =>
    intro y hy hk
    rw [execPriceUpserts_cons] at hy
    by_cases hx : priceKey x = k
    · rw [List.filter_cons_of_pos (by simp [hx])] at hlast
      cases hfx : xs.filter (fun z => decide (priceKey z = k)) with
      | nil =>
        rw [hfx] at hlast
        simp only [List.getLast?_singleton, Option.some.injEq] at hlast
        subst hlast
        have hnone : ∀ z ∈ xs, priceKey z ≠ k := by
          intro z hz
          have := List.filter_eq_nil_iff.mp hfx z hz
          simpa using this
        have h1 : y ∈ sqlUpsert priceKey x tbl :=
          mem_execPriceUpserts_of_key_ne xs _ hnone hy hk
        exact all_key_sqlUpsert_self h1 (by rw [hk, hx])
      | cons z zs =>
        rw [hfx, List.getLast?_cons_cons] at hlast
        rw [← hfx] at hlast
        exact ih _ hlast y hy hk
    · rw [List.filter_cons_of_neg (by simp [hx])] at hlast
      exact ih _ hlast y hy hk

theorem countP_key_eq_one {κ α : Type} [DecidableEq κ] {f : α → κ}
    {tbl : List α} {k : κ} (hnd : (tbl.map f).Nodup) (hmem : k ∈ tbl.map f) :
    tbl.countP (fun x => decide (f x = k)) = 1 := by
  induction tbl with
  | nil => simp at hmem
  | cons y ys ih =>
    rw [List.map_cons, List.nodup_cons] at hnd
    obtain ⟨hy, hnd'⟩ := hnd
    rcases List.mem_cons.mp hmem with hk | hk
    · rw [List.countP_cons_of_pos _ _ (by simp [hk])]
      have h0 : ys.countP (fun x => decide (f x = k)) = 0 := by
        rw [List.countP_eq_zero]
        intro x hx
        simp only [decide_eq_true_eq]
        intro hfx
        have hmx : f x ∈ List.map f ys := List.mem_map_of_mem f hx
        rw [hfx, hk] at hmx
        exact hy hmx
      rw [h0]
    · have hyk : ¬ (f y = k) := by
        intro hEq
        rw [← hEq] at hk
        exact hy hk
      rw [List.countP_cons_of_neg _ _ (by simp [hyk])]
      exact ih hnd' hk

/-! ### The claims -/

/-- Claim C3: if the provider's metadata call returns an empty mapping, the
fetch-and-merge run fails with the missing-metadata error before any write,
so no row of either table is written or updated (no successful state is
produced at all). -/
theorem C3_empty_metadata_fails_without_write (db : DB) (t : String)
    (hist : List Bar) (now : Nat) (providerInfo : Info)
    (hem : providerInfo = []) :
    addTicker db t providerInfo hist now
      = Except.error ("No metadata returned for ticker: " ++ t) := by
  subst hem
  rfl

theorem C3_witness :
    addTicker emptyDB "ICOLCAP.CL" [] [] 0
      = Except.error ("No metadata returned for ticker: " ++ "ICOLCAP.CL") :=
  C3_empty_metadata_fails_without_write emptyDB "ICOLCAP.CL" [] 0 [] rfl

/-- Claim C6: a provider history call returning zero rows makes the price merge
return a count of 0 and leave the `ticker_prices` table unchanged, with no
error raised (the merge is a total operation returning the old table). -/
theorem C6_empty_history_no_writes (tbl : List PriceRow) (t : String) :
    upsert_price_history tbl t [] = (tbl, 0) := rfl

/-- Claim C8: for every non-empty fetched history, the price merge returns the
number of bars submitted to the store — the length of the fetched series. -/
theorem C8_returns_submitted_count (tbl : List PriceRow) (t : String)
    (h : List Bar) (hne : h ≠ []) :
    (upsert_price_history tbl t h).2 = h.length := by
  have hemp : h.isEmpty = false := by
    cases h with
    | nil => exact absurd rfl hne
    | cons a as => rfl
  rw [upsert_price_history, if_neg (by simp [hemp])]
  simp

theorem C8_witness :
    (upsert_price_history xyzTable "XYZ" [sampleBar 2024 1 2 1]).2
      = [sampleBar 2024 1 2 1].length :=
  C8_returns_submitted_count xyzTable "XYZ" [sampleBar 2024 1 2 1] (by decide)

/-- Claim C9: when the store holds zero price rows for the requested ticker, the
reporter returns the "no data found" result rather than an error. -/
theorem C9_zero_rows_no_data (tbl : List PriceRow) (t : String)
    (hz : tbl.filter (fun r => decide (r.ticker = t)) = []) :
    report tbl t = ReportResult.noData t := by
  unfold report check_ticker
  rw [hz]

theorem C9_witness : report xyzTable "ABC" = ReportResult.noData "ABC" :=
  C9_zero_rows_no_data xyzTable "ABC" (by decide)

/-- Claim C1: starting from any table satisfying the (ticker, date) key invariant,
running the price merge twice with the same non-empty fetched history leaves
no duplicate (ticker, date) keys, and the row count after the second run
equals the row count after the first run. -/
theorem C1_price_merge_idempotent_count (tbl : List PriceRow) (t : String)
    (h : List Bar) (hnd : (tbl.map priceKey).Nodup) (hne : h ≠ []) :
    (((upsert_price_history (upsert_price_history tbl t h).1 t h).1).map
      priceKey).Nodup ∧
    (upsert_price_history (upsert_price_history tbl t h).1 t h).1.length
      = (upsert_price_history tbl t h).1.length := by
  have hemp : h.isEmpty = false := by
    cases h with
    | nil => exact absurd rfl hne
    | cons a as => rfl
  have heq : ∀ T : List PriceRow,
      (upsert_price_history T t h).1 = execPriceUpserts T (h.map (barToRow t)) := by
    intro T
    rw [upsert_price_history, if_neg (by simp [hemp])]
  rw [heq, heq]
  have hnd1 : ((execPriceUpserts tbl (h.map (barToRow t))).map priceKey).Nodup :=
    nodup_execPriceUpserts _ tbl hnd
  refine ⟨nodup_execPriceUpserts _ _ hnd1, ?_⟩
  have hall : ∀ x ∈ h.map (barToRow t),
      priceKey x ∈ (execPriceUpserts tbl (h.map (barToRow t))).map priceKey :=
    fun x hx => keys_sub_execPriceUpserts _ tbl hx
  exact (execPriceUpserts_keys_of_present _ _ hall).2

theorem C1_witness :
    (((upsert_price_history
        (upsert_price_history xyzTable "XYZ" [sampleBar 2024 1 4 2]).1 "XYZ"
          [sampleBar 2024 1 4 2]).1).map priceKey).Nodup ∧
    (upsert_price_history
        (upsert_price_history xyzTable "XYZ" [sampleBar 2024 1 4 2]).1 "XYZ"
          [sampleBar 2024 1 4 2]).1.length
      = (upsert_price_history xyzTable "XYZ" [sampleBar 2024 1 4 2]).1.length :=
  C1_price_merge_idempotent_count xyzTable "XYZ" [sampleBar 2024 1 4 2]
    (by decide) (by decide)

/-- Claim C2: on a table satisfying the ticker key invariant, the metadata merge
leaves exactly one row for the ticker, that row is exactly the one extracted
from the new mapping with the fresh timestamp (no prior field persists), and
a second merge with identical provider data leaves the same field values
except that the updated-at timestamp advances to the second write time. -/
theorem C2_info_full_replace_merge (tbl : List InfoRow) (t : String)
    (info : Info) (now1 now2 : Nat)
    (hnd : (tbl.map (fun r => r.ticker)).Nodup) :
    (upsert_ticker_info tbl t info now1).countP
        (fun r => decide (r.ticker = t)) = 1 ∧
    (upsert_ticker_info tbl t info now1).find?
        (fun r => decide (r.ticker = t)) = some (infoToRow t info now1) ∧
    (upsert_ticker_info (upsert_ticker_info tbl t info now1) t info now2).find?
        (fun r => decide (r.ticker = t)) = some (infoToRow t info now2) ∧
    infoToRow t info now2 = { infoToRow t info now1 with updated_at := now2 } := by
  refine ⟨?_, ?_, ?_, rfl⟩
  · exact countP_key_eq_one (nodup_map_sqlUpsert hnd) mem_map_sqlUpsert_self
  · exact @find?_sqlUpsert_self String InfoRow _ (fun r => r.ticker)
      (infoToRow t info now1) tbl
  · exact @find?_sqlUpsert_self String InfoRow _ (fun r => r.ticker)
      (infoToRow t info now2) (upsert_ticker_info tbl t info now1)

theorem C2_witness :
    (upsert_ticker_info [] "ICOLCAP.CL" sampleInfo 1).countP
        (fun r => decide (r.ticker = "ICOLCAP.CL")) = 1 ∧
    (upsert_ticker_info [] "ICOLCAP.CL" sampleInfo 1).find?
        (fun r => decide (r.ticker = "ICOLCAP.CL"))
      = some (infoToRow "ICOLCAP.CL" sampleInfo 1) ∧
    (upsert_ticker_info (upsert_ticker_info [] "ICOLCAP.CL" sampleInfo 1)
        "ICOLCAP.CL" sampleInfo 2).find?
        (fun r => decide (r.ticker = "ICOLCAP.CL"))
      = some (infoToRow "ICOLCAP.CL" sampleInfo 2) ∧
    infoToRow "ICOLCAP.CL" sampleInfo 2
      = { infoToRow "ICOLCAP.CL" sampleInfo 1 with updated_at := 2 } :=
  C2_info_full_replace_merge [] "ICOLCAP.CL" sampleInfo 1 2 (by decide)

/-- Claim C10: the price merge never touches the `ticker_info` table, the
metadata merge never touches the `ticker_prices` table, and neither merge
modifies any row belonging to a ticker other than the one given. -/
theorem C10_frame_effects (db : DB) (t : String) (info : Info) (now : Nat)
    (h : List Bar) :
    (dbUpsertPrices db t h).1.ticker_info = db.ticker_info ∧
    (dbUpsertInfo db t info now).ticker_prices = db.ticker_prices ∧
    (dbUpsertPrices db t h).1.ticker_prices.filter
        (fun r => decide (r.ticker ≠ t))
      = db.ticker_prices.filter (fun r => decide (r.ticker ≠ t)) ∧
    (dbUpsertInfo db t info now).ticker_info.filter
        (fun r => decide (r.ticker ≠ t))
      = db.ticker_info.filter (fun r => decide (r.ticker ≠ t)) := by
  refine ⟨rfl, rfl, ?_, ?_⟩
  · show ((upsert_price_history db.ticker_prices t h).1).filter _ = _
    by_cases hemp : h.isEmpty = true
    · rw [upsert_price_history, if_pos hemp]
    · rw [upsert_price_history, if_neg hemp]
      refine filter_execPriceUpserts _ _ _ ?_ ?_
      · intro x hx
        rw [List.mem_map] at hx
        obtain ⟨b, _, rfl⟩ := hx
        simp [barToRow]
      · intro x y hkey hqy
        have hxy : x.ticker = y.ticker := congrArg Prod.fst hkey
        simp only [decide_eq_false_iff_not, ne_eq, not_not] at hqy ⊢
        rw [hxy]
        exact hqy
  · refine filter_sqlUpsert _ (by simp [infoToRow]) ?_
    intro x hx
    have hxt : x.ticker = t := hx
    simp [hxt]

/-- Claim C5: stored dates are calendar-date strings obtained by discarding the
time-of-day and timezone parts of the provider timestamp: the normalization
depends only on the year, month and day components; every row the price
merge stores is either a pre-existing row or carries the normalized date of
one of the fetched bars; and the timestamp 2024-03-01T00:00:00-05:00
normalizes to "2024-03-01". -/
theorem C5_date_normalization :
    (∀ ts1 ts2 : Timestamp, ts1.year = ts2.year → ts1.month = ts2.month →
      ts1.day = ts2.day → dtDate ts1 = dtDate ts2) ∧
    (∀ (tbl : List PriceRow) (t : String) (h : List Bar),
      ∀ x ∈ (upsert_price_history tbl t h).1,
        x ∈ tbl ∨ ∃ b ∈ h, x = barToRow t b ∧ x.date = dtDate b.ts) ∧
    dtDate { year := 2024, month := 3, day := 1, hour := 0, minute := 0,
             second := 0, tzOffsetMinutes := -300 } = "2024-03-01" := by
  refine ⟨?_, ?_, by decide⟩
  · intro ts1 ts2 hy hm hd
    rw [dtDate, dtDate, hy, hm, hd]
  · intro tbl t h x hx
    by_cases hemp : h.isEmpty = true
    · rw [upsert_price_history, if_pos hemp] at hx
      exact Or.inl hx
    · rw [upsert_price_history, if_neg hemp] at hx
      rcases mem_execPriceUpserts _ _ hx with hx' | hx'
      · exact Or.inl hx'
      · right
        rw [List.mem_map] at hx'
        obtain ⟨b, hb, rfl⟩ := hx'
        exact ⟨b, hb, rfl, rfl⟩

theorem C5_witness :
    dtDate { year := 2024, month := 3, day := 1, hour := 5, minute := 30,
             second := 0, tzOffsetMinutes := 120 }
      = dtDate { year := 2024, month := 3, day := 1, hour := 0, minute := 0,
                 second := 0, tzOffsetMinutes := -300 } :=
  C5_date_normalization.1 _ _ rfl rfl rfl

/-- Claim C4: on the spec's example store (ticker "XYZ" with closes 10.5, 11.0,
9.8 on 2024-01-02/03/04) the reporter returns row_count 3, first date
2024-01-02, last date 2024-01-04 and latest close 9.8; and in general,
under the compound-key invariant, the reported latest close equals the
close of the requested ticker's row whose date is the reported maximum
date. -/
theorem C4_reporter_summary :
    check_ticker xyzTable "XYZ"
      = some { ticker := "XYZ", row_count := 3, first_date := "2024-01-02",
               last_date := "2024-01-04", latest_close := some (mkRat 49 5) } ∧
    ∀ (tbl : List PriceRow) (t : String) (s : Summary) (r : PriceRow),
      (tbl.map priceKey).Nodup →
      check_ticker tbl t = some s →
      r ∈ tbl → r.ticker = t → r.date = s.last_date →
      s.latest_close = r.close := by
  refine ⟨by decide, ?_⟩
  intro tbl t s r hnd hq hr hticker hdate
  unfold check_ticker at hq
  cases hfil : tbl.filter (fun x => decide (x.ticker = t)) with
  | nil =>
    rw [hfil] at hq
    exact absurd hq (by simp)
  | cons m ms =>
    rw [hfil] at hq
    rw [Option.some.injEq] at hq
    subst hq
    have hLmem : latestRow m ms ∈ m :: ms := latestRow_mem m ms
    have hLfil : latestRow m ms ∈ tbl.filter (fun x => decide (x.ticker = t)) :=
      hfil ▸ hLmem
    have hLtbl : latestRow m ms ∈ tbl := List.mem_of_mem_filter hLfil
    have hLticker : (latestRow m ms).ticker = t := by
      have := List.of_mem_filter hLfil
      simpa using this
    have hLdate : (latestRow m ms).date = maxDate m.date ms :=
      latestRow_date m ms
    have hkey : priceKey (latestRow m ms) = priceKey r := by
      rw [priceKey, priceKey, hLticker, hticker, hLdate, hdate]
    have hLr : latestRow m ms = r :=
      List.inj_on_of_nodup_map hnd hLtbl hr hkey
    show (latestRow m ms).close = r.close
    rw [hLr]

theorem C4_witness :
    Summary.latest_close
        { ticker := "XYZ", row_count := 3, first_date := "2024-01-02",
          last_date := "2024-01-04", latest_close := some (mkRat 49 5) }
      = (closeOnlyRow "XYZ" "2024-01-04" (mkRat 49 5)).close :=
  C4_reporter_summary.2 xyzTable "XYZ"
    { ticker := "XYZ", row_count := 3, first_date := "2024-01-02",
      last_date := "2024-01-04", latest_close := some (mkRat 49 5) }
    (closeOnlyRow "XYZ" "2024-01-04" (mkRat 49 5))
    (by decide) (by decide) (by decide) (by decide) (by decide)

/-- Claim C7: when several bars of one batch normalize to the same (ticker, date)
key, the merged table contains that key, and every stored row with that key
holds exactly the tuple built from the bar occurring last in the batch — the
last write in the batch wins, with no prior deduplication (every submitted
tuple is upserted, so the count returned is the full batch length). -/
theorem C7_last_write_in_batch_wins (tbl : List PriceRow) (t : String)
    (h : List Bar) (k : String × String) (r : PriceRow)
    (hlast : ((h.map (barToRow t)).filter
        (fun x => decide (priceKey x = k))).getLast? = some r) :
    k ∈ (upsert_price_history tbl t h).1.map priceKey ∧
    (∀ y ∈ (upsert_price_history tbl t h).1, priceKey y = k → y = r) ∧
    (upsert_price_history tbl t h).2 = h.length := by
  have hne : h ≠ [] := by
    rintro rfl
    simp at hlast
  have hemp : h.isEmpty = false := by
    cases h with
    | nil => exact absurd rfl hne
    | cons a as => rfl
  have hrfil : r ∈ (h.map (barToRow t)).filter
      (fun x => decide (priceKey x = k)) := by
    obtain ⟨hne', heq⟩ := List.mem_getLast?_eq_getLast
      (show r ∈ ((h.map (barToRow t)).filter
        (fun x => decide (priceKey x = k))).getLast? from hlast)
    exact heq ▸ List.getLast_mem hne'
  have hrrows : r ∈ h.map (barToRow t) := List.mem_of_mem_filter hrfil
  have hrk : priceKey r = k := by
    have := List.of_mem_filter hrfil
    simpa using this
  have heq1 : (upsert_price_history tbl t h).1
      = execPriceUpserts tbl (h.map (barToRow t)) := by
    rw [upsert_price_history, if_neg (by simp [hemp])]
  refine ⟨?_, ?_, ?_⟩
  · rw [heq1, ← hrk]
    exact keys_sub_execPriceUpserts _ tbl hrrows
  · rw [heq1]
    exact execPriceUpserts_last_write _ tbl hlast
  · rw [upsert_price_history, if_neg (by simp [hemp])]
    simp

theorem C7_witness :
    ("XYZ", "2024-01-02") ∈
      (upsert_price_history xyzTable "XYZ"
        [sampleBar 2024 1 2 1, sampleBar 2024 1 2 2]).1.map priceKey ∧
    (∀ y ∈ (upsert_price_history xyzTable "XYZ"
        [sampleBar 2024 1 2 1, sampleBar 2024 1 2 2]).1,
      priceKey y = ("XYZ", "2024-01-02")
        → y = barToRow "XYZ" (sampleBar 2024 1 2 2)) ∧
    (upsert_price_history xyzTable "XYZ"
        [sampleBar 2024 1 2 1, sampleBar 2024 1 2 2]).2
      = [sampleBar 2024 1 2 1, sampleBar 2024 1 2 2].length :=
  C7_last_write_in_batch_wins xyzTable "XYZ"
    [sampleBar 2024 1 2 1, sampleBar 2024 1 2 2]
    ("XYZ", "2024-01-02") (barToRow "XYZ" (sampleBar 2024 1 2 2)) (by decide)

end StockTools
